import Mathlib

/-!
# Verification of `bitbrush.py` (BitBrush)

Shallow embedding of `src/bitbrush.py`. Python arbitrary-precision
integers are modelled as `Nat` (inputs that may be negative, as in
`visualize`/`count_ones`, as `Int`); NumPy `uint64` arithmetic is
modelled as `Nat` arithmetic reduced modulo `2 ^ 64`; generators and
NumPy arrays are both modelled as eagerly materialised `List Nat`;
Python exceptions are modelled with `Except`.
-/

namespace BitBrush

/-- Python exceptions that the code in `bitbrush.py` can raise: a
generic `ValueError` (e.g. from a negative shift count, or from
`range()` with zero step) and NumPy's `ZeroDivisionError` from
`np.arange` with zero step.  The module defines no error classes of
its own. -/
inductive PyError where
  | valueError (msg : String)
  | zeroDivisionError
  deriving Repr, DecidableEq

/-- One pass of the inner loop of `_build_mirror_lut`:
`rev = (rev << 1) | (b & 1); b >>= 1`, on the state `(rev, b)`. -/
def lutStep (p : Nat × Nat) : Nat × Nat :=
  ((p.1 <<< 1) ||| (p.2 &&& 1), p.2 >>> 1)

/-- The entry the LUT-building loop of `_build_mirror_lut` computes for
index `i`: start from `b = i`, `rev = 0` and run `lutStep` 8 times
(`for _ in range(8)`). -/
def lutEntry (i : Nat) : Nat :=
  ((List.range 8).foldl (fun p _ => lutStep p) (0, i)).1

/-- Embedding of `BitBrush._build_mirror_lut`: the 256-entry table mapping each byte
value to its bit-reversed counterpart.  The table is independent of
`width` (the spec notes it could be a process-wide constant), so it is
embedded as a top-level constant rather than a per-instance field. -/
def mirrorLut : List Nat :=
  (List.range 256).map lutEntry

/-- The state of a constructed `BitBrush` instance: the configured
`width` and the derived `mask`.  (The `backend` selector is modelled by
giving each operation separate `python`/`numpy`-path definitions, and
`_mirror_lut` by the width-independent constant `mirrorLut`.) -/
structure State where
  width : Nat
  mask : Nat
  deriving Repr, DecidableEq

/-- Embedding of `BitBrush.__init__` specialised to a nonnegative width `w`:
stores `width = w` and `mask = (1 << w) - 1`. -/
def mkBrush (w : Nat) : State :=
  { width := w, mask := (1 <<< w) - 1 }

/-- Embedding of `BitBrush.__init__(width)` over Python ints.  The constructor
performs no validation; the only way it can fail is the expression
`(1 << width) - 1`, which raises `ValueError` for a negative shift
count.  For `width ≥ 0` (including `0`) it returns a fully initialised
object. -/
def init (width : Int) : Except PyError State :=
  if width < 0 then .error (.valueError "negative shift count")
  else .ok (mkBrush width.toNat)

/-- Embedding of `BitBrush.sweep_ones`, python backend: `(1 << i for i in range(width))`. -/
def sweep_ones (b : State) : List Nat :=
  (List.range b.width).map (fun i => 1 <<< i)

/-- Embedding of `BitBrush.sweep_zeros`, python backend:
`(mask ^ (1 << i) for i in range(width))`. -/
def sweep_zeros (b : State) : List Nat :=
  (List.range b.width).map (fun i => b.mask ^^^ (1 <<< i))

/-- Python `range(0, stop, step)` for a nonnegative `stop` and a
positive `step`: the `ceil(stop/step)` values `0, step, 2*step, ...`. -/
def rangeStep (stop step : Nat) : List Nat :=
  (List.range ((stop + step - 1) / step)).map (fun j => j * step)

/-- Python `range(0, stop, step)` over an arbitrary Python-int `step`:
`range` raises `ValueError` when `step == 0`, and is empty when
`step < 0` (since `stop ≥ 0 = start`). -/
def pyRangeStep (stop : Nat) (step : Int) : Except PyError (List Nat) :=
  if step = 0 then .error (.valueError "range() arg 3 must not be zero")
  else if step < 0 then .ok []
  else .ok (rangeStep stop step.toNat)

/-- The loop body of `toggle_sparse`, python backend: running value
`val`, and for each index `i`, `val |= 1 << i; yield val`. -/
def toggleGo : Nat → List Nat → List Nat
  | _, [] => []
  | val, i :: is =>
    let v := val ||| (1 <<< i)
    v :: toggleGo v is

/-- The sequence `toggle_sparse(step)` produces for a positive `step`:
the cumulative ORs over `range(0, width, step)`. -/
def toggleList (w step : Nat) : List Nat :=
  toggleGo 0 (rangeStep w step)

/-- Embedding of `BitBrush.toggle_sparse(step)`, python backend, consumed to
exhaustion.  There is no validation of `step`: `step == 0` makes the
underlying `range` raise `ValueError` (only once the generator is
advanced), and a negative `step` makes the `range` empty, so the
generator silently yields nothing. -/
def toggle_sparse (b : State) (step : Int) : Except PyError (List Nat) :=
  (pyRangeStep b.width step).map (toggleGo 0)

/-- Embedding of `BitBrush.mirror_mask(value)`, pure-Python path: byte-wise
reversal through `mirrorLut` followed by the final right shift by
`bytes_needed * 8 - width`. -/
def mirror_mask (b : State) (value : Nat) : Nat :=
  let bytes_needed := (b.width + 7) / 8
  let result := (List.range bytes_needed).foldl
    (fun result i =>
      result ||| ((mirrorLut.getD ((value >>> (i * 8)) &&& 0xFF) 0) <<<
        ((bytes_needed - 1 - i) * 8))) 0
  result >>> (bytes_needed * 8 - b.width)

/-- Embedding of `BitBrush.scan_patterns`, python backend: for each `radius` in
`range(center + 1)`, yield `left | right` where `left = 1 << (center - radius)`
and `right = 1 << (center + radius) if center + radius < width else 0`. -/
def scan_patterns (b : State) : List Nat :=
  let center := b.width / 2
  (List.range (center + 1)).map (fun radius =>
    let left := 1 <<< (center - radius)
    let right := if center + radius < b.width then 1 <<< (center + radius) else 0
    left ||| right)

/-- Structural helper for `popCount`: the first argument is fuel
bounding the recursion depth (any fuel `≥ n` computes the true value). -/
def popCountAux : Nat → Nat → Nat
  | 0, _ => 0
  | _, 0 => 0
  | fuel + 1, n + 1 => popCountAux fuel ((n + 1) / 2) + (n + 1) % 2

/-- Population count, the meaning of `bin(n).count('1')` for a
nonnegative `n`: the number of set bits of `n`. -/
def popCount (n : Nat) : Nat := popCountAux n n

/-- Embedding of `BitBrush.count_ones(value)`: `bin(int(value) & self.mask).count('1')`.
The argument is a Python int, possibly negative; `&` on Python ints is
`Int.land`. -/
def count_ones (b : State) (value : Int) : Nat :=
  popCount (Int.land value (Int.ofNat b.mask)).toNat

/-- Structural helper for `bitLen` (fuel-bounded recursion depth). -/
def bitLenAux : Nat → Nat → Nat
  | 0, _ => 0
  | _, 0 => 0
  | fuel + 1, n + 1 => bitLenAux fuel ((n + 1) / 2) + 1

/-- Number of binary digits of `n` (`0` for `n = 0`). -/
def bitLen (n : Nat) : Nat := bitLenAux n n

/-- The binary rendering `format(m, '0{w}b')` of a nonnegative `m`:
most-significant-bit first, zero-padded on the left to `w` characters
(`format` never produces fewer than the number of binary digits of `m`,
and at least one digit, hence the `max`). -/
def binString (w m : Nat) : String :=
  String.mk ((List.range (max w (max 1 (bitLen m)))).reverse.map
    (fun i => if m.testBit i then '1' else '0'))

/-- Embedding of `BitBrush.visualize(value)`: `format(int(value) & self.mask, f'0{width}b')`. -/
def visualize (b : State) (value : Int) : String :=
  binString b.width (Int.land value (Int.ofNat b.mask)).toNat

/-- NumPy `uint64` wrap-around. -/
def uint64 (n : Nat) : Nat := n % 2 ^ 64

/-- Embedding of `BitBrush.sweep_ones`, numpy backend:
`np.left_shift(np.uint64(1), np.arange(width, dtype=np.uint64))`. -/
def sweep_ones_np (b : State) : List Nat :=
  (List.range b.width).map (fun i => uint64 (1 <<< i))

/-- Embedding of `BitBrush.sweep_zeros`, numpy backend: `np.bitwise_xor(self.mask, ones)`
with `ones` as in `sweep_ones_np` (the mask is converted to `uint64`;
xor introduces no further overflow). -/
def sweep_zeros_np (b : State) : List Nat :=
  (List.range b.width).map (fun i => uint64 b.mask ^^^ uint64 (1 <<< i))

/-- The loop filling `arr` in the numpy path of `toggle_sparse`:
`arr[idx] = arr[idx - 1] | bit if idx > 0 else bit`, modelled with the
previously stored value (`none` at index 0). -/
def toggleNpGo : Option Nat → List Nat → List Nat
  | _, [] => []
  | o, i :: is =>
    let bit := uint64 (1 <<< i)
    let v := match o with
      | none => bit
      | some p => p ||| bit
    v :: toggleNpGo (some v) is

/-- The array the numpy branch of `toggle_sparse` computes for a
positive `step`: `np.arange(0, width, step)` followed by the cumulative
OR loop filling `arr`.  Because the body of `toggle_sparse` contains
`yield` (line 121), the function is a generator even when
`backend == 'numpy'`, so this array is never delivered to the caller:
the branch's `return arr` only raises `StopIteration` with the array
stored in its discarded value. -/
def toggle_sparse_np_arr (b : State) (step : Nat) : List Nat :=
  toggleNpGo none (rangeStep b.width step)

/-- Observable behaviour of `BitBrush.toggle_sparse(step)` under the
numpy backend, consumed to exhaustion.  The body contains `yield`, so
the call returns a generator object; advancing it runs the numpy
branch, whose `np.arange` raises `ZeroDivisionError` for `step == 0`
and whose `return arr` otherwise terminates the generator via
`StopIteration` without yielding a single element. -/
def toggle_sparse_np (_b : State) (step : Int) : Except PyError (List Nat) :=
  if step = 0 then .error .zeroDivisionError
  else .ok []

/-- Embedding of `BitBrush.mirror_mask`, numpy path, on a single `uint64` array
element `value` (element-wise semantics of the vectorised code); every
intermediate stays in `uint64`. -/
def mirror_mask_np (b : State) (value : Nat) : Nat :=
  let bytes_needed := (b.width + 7) / 8
  let result := (List.range bytes_needed).foldl
    (fun result i =>
      uint64 (result ||| uint64 ((mirrorLut.getD (uint64 (value >>> (i * 8)) &&& 0xFF) 0) <<<
        ((bytes_needed - 1 - i) * 8)))) 0
  result >>> (bytes_needed * 8 - b.width)

/-- The array the numpy branch of `scan_patterns` computes:
`np.bitwise_or(left, right)`, where `np.where` evaluates both branches
but the element-wise result keeps the selected right term.  As with
`toggle_sparse_np_arr`, the surrounding function is a generator (its
body contains `yield`, line 183), so this array is never delivered:
`return` only raises `StopIteration`. -/
def scan_patterns_np_arr (b : State) : List Nat :=
  let center := b.width / 2
  (List.range (center + 1)).map (fun radius =>
    let left := uint64 (1 <<< (center - radius))
    let right := if center + radius < b.width then uint64 (1 <<< (center + radius)) else 0
    left ||| right)

/-- Observable behaviour of `BitBrush.scan_patterns` under the numpy
backend, consumed to exhaustion: the generator executes the numpy
branch and immediately returns, yielding nothing, for every width. -/
def scan_patterns_np (_b : State) : List Nat := []

/-- Mathematical bit reversal of the `n` low bits of `b` (the intended
meaning of `mirror`): defined by peeling the highest processed bit,
`revN (n+1) b = (revN n b <<< 1) ||| bit n of b`. -/
def revN : Nat → Nat → Nat
  | 0, _ => 0
  | n + 1, b => (revN n b <<< 1) ||| ((b >>> n) &&& 1)

/-- Parse a binary string, most-significant-bit first, as a base-2
natural number (the claim-side round-trip parser for `visualize`). -/
def parseBin (s : String) : Nat :=
  s.data.foldl (fun acc c => 2 * acc + (if c = '1' then 1 else 0)) 0

/-- The claim-side formula for `toggle_sparse`: element `k` is the
bitwise OR of `1 <<< (j * step)` over all `j ≤ k`. -/
def cumOr (step k : Nat) : Nat :=
  (List.range (k + 1)).foldl (fun a j => a ||| (1 <<< (j * step))) 0

end BitBrush

/-! ### Generic bit-manipulation toolkit -/

theorem testBit_false_of_lt {x n j : Nat} (hx : x < 2 ^ n) (hj : n ≤ j) :
    x.testBit j = false :=
  Nat.testBit_lt_two_pow (lt_of_lt_of_le hx (Nat.pow_le_pow_right (by decide) hj))

theorem lt_two_pow_of_testBit_false {x k : Nat}
    (h : ∀ j, k ≤ j → x.testBit j = false) : x < 2 ^ k := by
  have hx : x = x &&& (2 ^ k - 1) := by
    apply Nat.eq_of_testBit_eq
    intro j
    rw [Nat.testBit_land, Nat.testBit_two_pow_sub_one]
    by_cases hj : j < k
    · simp [hj]
    · simp [hj, h j (le_of_not_lt hj)]
  calc x = x &&& (2 ^ k - 1) := hx
    _ ≤ 2 ^ k - 1 := Nat.and_le_right
    _ < 2 ^ k := Nat.sub_lt (Nat.pos_pow_of_pos k (by decide)) (by decide)

theorem lor_lt_two_pow {x y k : Nat} (hx : x < 2 ^ k) (hy : y < 2 ^ k) :
    x ||| y < 2 ^ k := by
  apply lt_two_pow_of_testBit_false
  intro j hj
  rw [Nat.testBit_lor, testBit_false_of_lt hx hj, testBit_false_of_lt hy hj]
  rfl

theorem xor_lt_two_pow {x y k : Nat} (hx : x < 2 ^ k) (hy : y < 2 ^ k) :
    x ^^^ y < 2 ^ k := by
  apply lt_two_pow_of_testBit_false
  intro j hj
  rw [Nat.testBit_xor, testBit_false_of_lt hx hj, testBit_false_of_lt hy hj]
  rfl

theorem and_two_pow_sub_one (v n : Nat) : v &&& (2 ^ n - 1) = v % 2 ^ n := by
  apply Nat.eq_of_testBit_eq
  intro j
  rw [Nat.testBit_land, Nat.testBit_two_pow_sub_one, Nat.testBit_mod_two_pow]
  exact Bool.and_comm _ _

namespace BitBrush

/-! ### The mathematical reversal `revN` -/

theorem testBit_revN (n : Nat) : ∀ (b j : Nat),
    (revN n b).testBit j = if j < n then b.testBit (n - 1 - j) else false := by
  induction n with
  | zero => intro b j; simp [revN, Nat.zero_testBit]
  | succ n ih =>
    intro b j
    rw [revN, Nat.testBit_lor, Nat.testBit_shiftLeft]
    cases j with
    | zero =>
      have h1 : ((b >>> n) &&& 1).testBit 0 = b.testBit n := by
        have e : (b >>> n) &&& 1 = (b >>> n) % 2 ^ 1 := by
          rw [Nat.and_one_is_mod, Nat.pow_one]
        rw [e, Nat.testBit_mod_two_pow, Nat.testBit_shiftRight]
        simp
      simp [h1]
    | succ j =>
      have h2 : ((b >>> n) &&& 1).testBit (j + 1) = false := by
        apply testBit_false_of_lt (n := 1)
        · calc (b >>> n) &&& 1 ≤ 1 := Nat.and_le_right
            _ < 2 ^ 1 := by decide
        · omega
      rw [h2, Bool.or_false]
      have hge : (decide (j + 1 ≥ 1)) = true := by simp
      rw [hge, Bool.true_and]
      have h3 : j + 1 - 1 = j := rfl
      rw [h3, ih b j]
      by_cases hlt : j < n
      · rw [if_pos hlt, if_pos (by omega)]
        congr 1
        omega
      · rw [if_neg hlt, if_neg (by omega)]

theorem revN_lt (n b : Nat) : revN n b < 2 ^ n := by
  apply lt_two_pow_of_testBit_false
  intro j hj
  rw [testBit_revN]
  simp [Nat.not_lt.mpr hj]

theorem revN_revN {n x : Nat} (hx : x < 2 ^ n) : revN n (revN n x) = x := by
  apply Nat.eq_of_testBit_eq
  intro j
  rw [testBit_revN]
  by_cases hj : j < n
  · rw [if_pos hj, testBit_revN]
    have h1 : n - 1 - j < n := by omega
    rw [if_pos h1]
    congr 1
    omega
  · rw [if_neg hj, testBit_false_of_lt hx (le_of_not_lt hj)]

/-! ### The lookup table computes the 8-bit reversal -/

theorem shiftLeft_lor_distrib (a c k : Nat) :
    (a ||| c) <<< k = (a <<< k) ||| (c <<< k) := by
  apply Nat.eq_of_testBit_eq
  intro j
  rw [Nat.testBit_lor, Nat.testBit_shiftLeft, Nat.testBit_shiftLeft,
    Nat.testBit_shiftLeft, Nat.testBit_lor]
  cases decide (j ≥ k) <;> simp

theorem lutFold_eq (n : Nat) : ∀ (rev b : Nat),
    (List.range n).foldl (fun p _ => lutStep p) (rev, b) =
      (rev <<< n ||| revN n b, b >>> n) := by
  induction n with
  | zero =>
    intro rev b
    simp [revN, Nat.shiftLeft_zero, Nat.or_zero, Nat.shiftRight_zero]
  | succ n ih =>
    intro rev b
    rw [List.range_succ, List.foldl_append, ih rev b]
    show lutStep _ = _
    rw [lutStep]
    refine Prod.ext ?_ ?_
    · show ((rev <<< n ||| revN n b) <<< 1) ||| ((b >>> n) &&& 1) = _
      rw [shiftLeft_lor_distrib, ← Nat.shiftLeft_add, revN, Nat.lor_assoc]
    · show (b >>> n) >>> 1 = b >>> (n + 1)
      rw [← Nat.shiftRight_add]

theorem lutEntry_eq_revN (i : Nat) : lutEntry i = revN 8 i := by
  rw [lutEntry, lutFold_eq]
  show (0 <<< 8 ||| revN 8 i, _).1 = _
  rw [Nat.zero_shiftLeft, Nat.zero_or]

theorem mirrorLut_getD {i : Nat} (h : i < 256) :
    mirrorLut.getD i 0 = revN 8 i := by
  rw [mirrorLut, List.getD_eq_getElem?_getD, List.getElem?_map,
    List.getElem?_range h]
  simp [lutEntry_eq_revN]

/-! ### `mirror_mask` is the `width`-bit reversal -/

theorem foldl_lor_testBit (f : Nat → Nat) (j : Nat) : ∀ (l : List Nat) (a : Nat),
    (l.foldl (fun acc i => acc ||| f i) a).testBit j =
      (a.testBit j || l.any (fun i => (f i).testBit j)) := by
  intro l
  induction l with
  | nil => intro a; simp
  | cons i is ih =>
    intro a
    rw [List.foldl_cons, ih, List.any_cons, Nat.testBit_lor, Bool.or_assoc]

theorem byte_term_testBit (x i s j : Nat) :
    ((mirrorLut.getD ((x >>> (i * 8)) &&& 0xFF) 0) <<< s).testBit j =
      (decide (s ≤ j) && decide (j - s < 8) && x.testBit (i * 8 + (7 - (j - s)))) := by
  have hc : (x >>> (i * 8)) &&& 0xFF < 256 :=
    lt_of_le_of_lt Nat.and_le_right (by decide)
  rw [Nat.testBit_shiftLeft, mirrorLut_getD hc, testBit_revN]
  by_cases h1 : s ≤ j
  · by_cases h2 : j - s < 8
    · have e8 : (0xFF : Nat) = 2 ^ 8 - 1 := by decide
      rw [if_pos h2, Nat.testBit_land, e8, Nat.testBit_two_pow_sub_one,
        Nat.testBit_shiftRight]
      have h3 : 8 - 1 - (j - s) = 7 - (j - s) := rfl
      have h4 : 7 - (j - s) < 8 := by omega
      simp [h1, h2, h3, h4, Nat.add_comm]
    · rw [if_neg h2]
      simp [h2]
  · simp [h1]

theorem mirror_mask_eq_revN (b : State) (x : Nat) :
    mirror_mask b x = revN b.width x := by
  set w := b.width with hw
  set B := (w + 7) / 8 with hB
  have hwB : w ≤ 8 * B := by omega
  have hres : ∀ j : Nat,
      ((List.range B).foldl
        (fun result i =>
          result ||| ((mirrorLut.getD ((x >>> (i * 8)) &&& 0xFF) 0) <<<
            ((B - 1 - i) * 8))) 0).testBit j =
      (if j < 8 * B then x.testBit (8 * B - 1 - j) else false) := by
    intro j
    rw [foldl_lor_testBit (fun i => (mirrorLut.getD ((x >>> (i * 8)) &&& 0xFF) 0) <<<
      ((B - 1 - i) * 8)) j (List.range B) 0]
    rw [Nat.zero_testBit, Bool.false_or]
    by_cases hj : j < 8 * B
    · rw [if_pos hj, Bool.eq_iff_iff, List.any_eq_true]
      constructor
      · rintro ⟨i, hi, hterm⟩
        rw [List.mem_range] at hi
        rw [byte_term_testBit] at hterm
        simp only [Bool.and_eq_true, decide_eq_true_eq] at hterm
        obtain ⟨⟨h1, h2⟩, h3⟩ := hterm
        have : i * 8 + (7 - (j - (B - 1 - i) * 8)) = 8 * B - 1 - j := by omega
        rwa [this] at h3
      · intro hx
        refine ⟨B - 1 - j / 8, List.mem_range.mpr (by omega), ?_⟩
        rw [byte_term_testBit]
        have hq : j / 8 < B := by omega
        have h1 : (B - 1 - (B - 1 - j / 8)) * 8 ≤ j := by
          have : B - 1 - (B - 1 - j / 8) = j / 8 := by omega
          rw [this]; omega
        have h2 : j - (B - 1 - (B - 1 - j / 8)) * 8 < 8 := by
          have : B - 1 - (B - 1 - j / 8) = j / 8 := by omega
          rw [this]; omega
        have h3 : (B - 1 - j / 8) * 8 + (7 - (j - (B - 1 - (B - 1 - j / 8)) * 8)) =
            8 * B - 1 - j := by
          have : B - 1 - (B - 1 - j / 8) = j / 8 := by omega
          rw [this]; omega
        rw [h3]
        simp [h1, h2, hx]
    · rw [if_neg hj, List.any_eq_false]
      intro i hi
      rw [List.mem_range] at hi
      rw [byte_term_testBit]
      have : ¬ (j - (B - 1 - i) * 8 < 8) := by omega
      simp [this]
  apply Nat.eq_of_testBit_eq
  intro j
  rw [mirror_mask]
  show (_ >>> (B * 8 - w)).testBit j = _
  rw [Nat.testBit_shiftRight, hres, testBit_revN]
  by_cases hj : j < w
  · have h1 : B * 8 - w + j < 8 * B := by omega
    rw [if_pos h1, if_pos hj]
    congr 1
    omega
  · have h1 : ¬ (B * 8 - w + j < 8 * B) := by omega
    rw [if_neg h1, if_neg hj]

end BitBrush

/-! ### Disjoint OR is addition -/

theorem testBit_mul_pow_add {a r n : Nat} (j : Nat) (hr : r < 2 ^ n) :
    (a * 2 ^ n + r).testBit j = if j < n then r.testBit j else a.testBit (j - n) := by
  by_cases h : j < n
  · rw [if_pos h, Nat.testBit_to_div_mod, Nat.testBit_to_div_mod]
    have e1 : 2 ^ n = 2 ^ j * 2 ^ (n - j) := by
      rw [← pow_add]
      congr 1
      omega
    have e2 : (a * 2 ^ n + r) / 2 ^ j = r / 2 ^ j + a * 2 ^ (n - j) := by
      rw [e1, ← mul_assoc, mul_comm a (2 ^ j), mul_assoc, Nat.add_comm,
        Nat.add_mul_div_left _ _ (Nat.pos_pow_of_pos j (by decide))]
    rw [e2]
    have e3 : a * 2 ^ (n - j) = (a * 2 ^ (n - j - 1)) * 2 := by
      rw [mul_assoc, ← pow_succ]
      congr 2
      omega
    rw [e3]
    have e4 : (r / 2 ^ j + (a * 2 ^ (n - j - 1)) * 2) % 2 = r / 2 ^ j % 2 := by
      omega
    rw [e4]
  · rw [if_neg h, Nat.testBit_to_div_mod, Nat.testBit_to_div_mod]
    have e1 : (a * 2 ^ n + r) / 2 ^ j = a / 2 ^ (j - n) := by
      have e2 : (2 : Nat) ^ j = 2 ^ n * 2 ^ (j - n) := by
        rw [← pow_add]
        congr 1
        omega
      rw [e2, ← Nat.div_div_eq_div_mul, Nat.add_comm, mul_comm a (2 ^ n),
        Nat.add_mul_div_left r a (Nat.pos_pow_of_pos n (by decide)),
        Nat.div_eq_of_lt hr, Nat.zero_add]
    rw [e1]

theorem shiftLeft_lor_eq_add {a r n : Nat} (hr : r < 2 ^ n) :
    (a <<< n) ||| r = a * 2 ^ n + r := by
  apply Nat.eq_of_testBit_eq
  intro j
  rw [Nat.testBit_lor, Nat.testBit_shiftLeft, testBit_mul_pow_add j hr]
  by_cases h : j < n
  · have h2 : ¬ (j ≥ n) := by omega
    simp [h, h2]
  · have h2 : j ≥ n := le_of_not_lt h
    simp [h, h2, testBit_false_of_lt hr h2]

/-! ### popCount -/

namespace BitBrush

theorem popCountAux_fuel : ∀ (f1 f2 n : Nat), n ≤ f1 → n ≤ f2 →
    popCountAux f1 n = popCountAux f2 n := by
  intro f1
  induction f1 with
  | zero =>
    intro f2 n h1 _
    obtain rfl : n = 0 := Nat.le_zero.mp h1
    cases f2 <;> rfl
  | succ f1 ih =>
    intro f2 n h1 h2
    cases n with
    | zero => cases f2 <;> rfl
    | succ n =>
      cases f2 with
      | zero => omega
      | succ f2 =>
        show popCountAux f1 ((n + 1) / 2) + (n + 1) % 2 =
          popCountAux f2 ((n + 1) / 2) + (n + 1) % 2
        rw [ih f2 ((n + 1) / 2) (by omega) (by omega)]

theorem popCount_div2 (n : Nat) : popCount n = popCount (n / 2) + n % 2 := by
  cases n with
  | zero => rfl
  | succ n =>
    show popCountAux (n + 1) (n + 1) = _
    show popCountAux n ((n + 1) / 2) + (n + 1) % 2 = _
    rw [popCount, popCountAux_fuel n ((n + 1) / 2) ((n + 1) / 2) (by omega) le_rfl]

theorem popCount_two_mul_add {c : Nat} (a : Nat) (hc : c < 2) :
    popCount (2 * a + c) = popCount a + c := by
  rw [popCount_div2]
  have h1 : (2 * a + c) / 2 = a := by omega
  have h2 : (2 * a + c) % 2 = c := by omega
  rw [h1, h2]

theorem popCount_two_pow_add {w r : Nat} (hr : r < 2 ^ w) :
    popCount (2 ^ w + r) = 1 + popCount r := by
  induction w generalizing r with
  | zero =>
    obtain rfl : r = 0 := by omega
    rfl
  | succ w ih =>
    have h1 : (2 ^ (w + 1) + r) / 2 = 2 ^ w + r / 2 := by
      rw [pow_succ]
      omega
    have h2 : (2 ^ (w + 1) + r) % 2 = r % 2 := by
      rw [pow_succ]
      omega
    have h3 : r / 2 < 2 ^ w := by
      rw [pow_succ] at hr
      omega
    rw [popCount_div2, h1, h2, ih h3, Nat.add_assoc, ← popCount_div2]

theorem popCount_revN (w : Nat) : ∀ x : Nat,
    popCount (revN w x) = popCount (x % 2 ^ w) := by
  induction w with
  | zero => intro x; simp [revN, Nat.mod_one]
  | succ w ih =>
    intro x
    have hc : (x >>> w) &&& 1 < 2 ^ 1 :=
      lt_of_le_of_lt Nat.and_le_right (by decide)
    rw [revN, shiftLeft_lor_eq_add hc, pow_one, mul_comm,
      popCount_two_mul_add _ (by omega : (x >>> w) &&& 1 < 2), ih x]
    rw [Nat.and_one_is_mod, Nat.shiftRight_eq_div_pow, Nat.mod_pow_succ]
    have hcase : x / 2 ^ w % 2 = 0 ∨ x / 2 ^ w % 2 = 1 := by omega
    rcases hcase with h | h
    · rw [h, Nat.mul_zero, Nat.add_zero, Nat.add_zero]
    · rw [h, Nat.mul_one, Nat.add_comm (x % 2 ^ w) (2 ^ w),
        popCount_two_pow_add (Nat.mod_lt x (Nat.pos_pow_of_pos w (by decide))),
        Nat.add_comm 1 _]

end BitBrush

/-! ### Facts about the constructed state and the generators -/

theorem ldiff_le_left (m a : Nat) : Nat.ldiff m a ≤ m := by
  have h : Nat.ldiff m a = (Nat.ldiff m a) &&& m := by
    apply Nat.eq_of_testBit_eq
    intro j
    rw [Nat.testBit_land, Nat.testBit_ldiff]
    cases m.testBit j <;> cases a.testBit j <;> rfl
  rw [h]
  exact Nat.and_le_right

namespace BitBrush

theorem mkBrush_width (w : Nat) : (mkBrush w).width = w := rfl

theorem mkBrush_mask (w : Nat) : (mkBrush w).mask = 2 ^ w - 1 := by
  show (1 <<< w) - 1 = 2 ^ w - 1
  rw [Nat.one_shiftLeft]

theorem rangeStep_length (w s : Nat) :
    (rangeStep w s).length = (w + s - 1) / s := by
  rw [rangeStep, List.length_map, List.length_range]

theorem lt_of_lt_ceilDiv {w s k : Nat} (hs : 1 ≤ s) (hk : k < (w + s - 1) / s) :
    k * s < w := by
  have h1 : (k + 1) * s ≤ w + s - 1 :=
    (Nat.le_div_iff_mul_le (by omega)).mp hk
  rw [Nat.succ_mul] at h1
  omega

theorem toggleGo_length : ∀ (l : List Nat) (acc : Nat),
    (toggleGo acc l).length = l.length := by
  intro l
  induction l with
  | nil => intro acc; rfl
  | cons i is ih =>
    intro acc
    show (toggleGo (acc ||| (1 <<< i)) is).length + 1 = is.length + 1
    rw [ih]

theorem toggleGo_getElem : ∀ (l : List Nat) (acc k : Nat), k < l.length →
    (toggleGo acc l)[k]? =
      some ((l.take (k + 1)).foldl (fun a i => a ||| (1 <<< i)) acc) := by
  intro l
  induction l with
  | nil => intro acc k hk; simp at hk
  | cons i is ih =>
    intro acc k hk
    cases k with
    | zero =>
      show (_ :: toggleGo _ is)[0]? = _
      rw [List.getElem?_cons_zero]
      rfl
    | succ k =>
      show (_ :: toggleGo (acc ||| (1 <<< i)) is)[k + 1]? = _
      rw [List.getElem?_cons_succ, ih _ k (by simpa using hk)]
      rfl

theorem toggleList_getElem {w s k : Nat} (hk : k < (w + s - 1) / s) :
    (toggleList w s)[k]? = some (cumOr s k) := by
  have hmin : (k + 1) ⊓ ((w + s - 1) / s) = k + 1 := by omega
  rw [toggleList, toggleGo_getElem _ 0 k (by rw [rangeStep_length]; exact hk)]
  rw [rangeStep, ← List.map_take, List.take_range, hmin, cumOr, List.foldl_map]

theorem cumOr_zero (s : Nat) : cumOr s 0 = 1 := by
  show (List.range 1).foldl _ 0 = 1
  rw [show List.range 1 = [0] from rfl, List.foldl_cons]
  show (0 ||| (1 <<< (0 * s))) = 1
  rw [Nat.zero_mul, Nat.zero_or]
  rfl

theorem cumOr_succ (s k : Nat) :
    cumOr s (k + 1) = cumOr s k ||| (1 <<< ((k + 1) * s)) := by
  rw [cumOr, cumOr, List.range_succ, List.foldl_append, List.foldl_cons]
  rfl

theorem cumOr_lt (s k : Nat) : cumOr s k < 2 ^ (k * s + 1) := by
  induction k with
  | zero => rw [cumOr_zero]; exact Nat.one_lt_two_pow_iff.mpr (by omega)
  | succ k ih =>
    rw [cumOr_succ]
    apply lor_lt_two_pow
    · exact lt_of_lt_of_le ih
        (Nat.pow_le_pow_right (by decide) (by rw [Nat.succ_mul]; omega))
    · rw [Nat.one_shiftLeft]
      exact Nat.pow_lt_pow_right (by decide) (by omega)

theorem cumOr_succ_add {s : Nat} (k : Nat) (hs : 1 ≤ s) :
    cumOr s (k + 1) = cumOr s k + 2 ^ ((k + 1) * s) := by
  have hb : cumOr s k < 2 ^ ((k + 1) * s) :=
    lt_of_lt_of_le (cumOr_lt s k)
      (Nat.pow_le_pow_right (by decide) (by rw [Nat.succ_mul]; omega))
  rw [cumOr_succ, Nat.lor_comm, shiftLeft_lor_eq_add hb, one_mul, Nat.add_comm]

theorem cumOr_testBit_next {s : Nat} (k : Nat) (hs : 1 ≤ s) :
    (cumOr s k).testBit ((k + 1) * s) = false := by
  apply testBit_false_of_lt (cumOr_lt s k)
  rw [Nat.succ_mul]
  omega

theorem cumOr_lt_two_pow {w s k : Nat} (hs : 1 ≤ s) (hk : k < (w + s - 1) / s) :
    cumOr s k < 2 ^ w := by
  have h1 : k * s < w := lt_of_lt_ceilDiv hs hk
  exact lt_of_lt_of_le (cumOr_lt s k) (Nat.pow_le_pow_right (by decide) (by omega))

theorem toggleGo_mem_lt {p : Nat} : ∀ (l : List Nat) (acc : Nat),
    (∀ i ∈ l, i < p) → acc < 2 ^ p → ∀ v ∈ toggleGo acc l, v < 2 ^ p := by
  intro l
  induction l with
  | nil => intro acc _ _ v hv; simp [toggleGo] at hv
  | cons i is ih =>
    intro acc hl hacc v hv
    have hi : i < p := hl i (List.mem_cons.mpr (Or.inl rfl))
    have hacc2 : acc ||| (1 <<< i) < 2 ^ p := by
      apply lor_lt_two_pow hacc
      rw [Nat.one_shiftLeft]
      exact Nat.pow_lt_pow_right (by decide) hi
    rcases List.mem_cons.mp hv with rfl | hv
    · exact hacc2
    · exact ih _ (fun j hj => hl j (List.mem_cons.mpr (Or.inr hj))) hacc2 v hv

theorem rangeStep_mem {w s i : Nat} (hs : 1 ≤ s) (hi : i ∈ rangeStep w s) :
    i < w := by
  rw [rangeStep] at hi
  obtain ⟨j, hj, rfl⟩ := List.mem_map.mp hi
  rw [List.mem_range] at hj
  exact lt_of_lt_ceilDiv hs hj

/-! ### `visualize`, `parseBin` and Python `&` on possibly negative ints -/

theorem bitLenAux_fuel : ∀ (f1 f2 n : Nat), n ≤ f1 → n ≤ f2 →
    bitLenAux f1 n = bitLenAux f2 n := by
  intro f1
  induction f1 with
  | zero =>
    intro f2 n h1 _
    obtain rfl : n = 0 := Nat.le_zero.mp h1
    cases f2 <;> rfl
  | succ f1 ih =>
    intro f2 n h1 h2
    cases n with
    | zero => cases f2 <;> rfl
    | succ n =>
      cases f2 with
      | zero => omega
      | succ f2 =>
        show bitLenAux f1 ((n + 1) / 2) + 1 = bitLenAux f2 ((n + 1) / 2) + 1
        rw [ih f2 ((n + 1) / 2) (by omega) (by omega)]

theorem bitLen_le {w : Nat} : ∀ {m : Nat}, m < 2 ^ w → bitLen m ≤ w := by
  induction w with
  | zero =>
    intro m hm
    obtain rfl : m = 0 := by omega
    exact le_rfl
  | succ w ih =>
    intro m hm
    cases m with
    | zero => exact Nat.zero_le _
    | succ m =>
      show bitLenAux (m + 1) (m + 1) ≤ w + 1
      show bitLenAux m ((m + 1) / 2) + 1 ≤ w + 1
      have h1 : (m + 1) / 2 < 2 ^ w := by
        rw [pow_succ] at hm
        omega
      have h2 : bitLenAux m ((m + 1) / 2) = bitLen ((m + 1) / 2) :=
        bitLenAux_fuel m ((m + 1) / 2) ((m + 1) / 2) (by omega) le_rfl
      rw [h2]
      exact Nat.add_le_add_right (ih h1) 1

theorem binString_data {w m : Nat} (h1 : 1 ≤ w) (hm : m < 2 ^ w) :
    (binString w m).data =
      (List.range w).reverse.map (fun i => if m.testBit i then '1' else '0') := by
  rw [binString]
  have hmax : max w (max 1 (bitLen m)) = w := by
    have := bitLen_le hm
    omega
  rw [hmax]

theorem binString_length {w m : Nat} (h1 : 1 ≤ w) (hm : m < 2 ^ w) :
    (binString w m).length = w := by
  show (binString w m).data.length = w
  rw [binString_data h1 hm, List.length_map, List.length_reverse, List.length_range]

theorem parse_fold (m : Nat) : ∀ (w acc : Nat),
    ((List.range w).reverse.map (fun i => if m.testBit i then '1' else '0')).foldl
      (fun acc c => 2 * acc + (if c = '1' then 1 else 0)) acc =
      acc * 2 ^ w + m % 2 ^ w := by
  intro w
  induction w with
  | zero =>
    intro acc
    simp [Nat.mod_one]
  | succ w ih =>
    intro acc
    have hrev : (List.range (w + 1)).reverse = w :: (List.range w).reverse := by
      rw [List.range_succ, List.reverse_append]
      rfl
    rw [hrev, List.map_cons, List.foldl_cons, ih]
    have hmod : m % 2 ^ (w + 1) = m % 2 ^ w + 2 ^ w * (m / 2 ^ w % 2) :=
      Nat.mod_pow_succ
    cases htb : m.testBit w with
    | true =>
      have hb : m / 2 ^ w % 2 = 1 := by
        rw [Nat.testBit_to_div_mod] at htb
        exact of_decide_eq_true htb
      rw [hmod, hb]
      have hone : (2 * acc + if (if true = true then '1' else '0') = '1' then 1 else 0)
          = 2 * acc + 1 := by norm_num
      rw [hone, pow_succ]
      ring
    | false =>
      have hb : m / 2 ^ w % 2 = 0 := by
        rw [Nat.testBit_to_div_mod] at htb
        have := of_decide_eq_false htb
        omega
      rw [hmod, hb]
      have hzero : (2 * acc + if (if false = true then '1' else '0') = '1' then 1 else 0)
          = 2 * acc := by
        norm_num
        decide
      rw [hzero, pow_succ]
      ring

theorem parseBin_binString {w m : Nat} (h1 : 1 ≤ w) (hm : m < 2 ^ w) :
    parseBin (binString w m) = m := by
  rw [parseBin, binString_data h1 hm, parse_fold m w 0, Nat.zero_mul,
    Nat.zero_add, Nat.mod_eq_of_lt hm]

theorem land_mask_nonneg (x : Int) (m : Nat) :
    0 ≤ Int.land x (Int.ofNat m) := by
  cases x with
  | ofNat a => exact Int.ofNat_nonneg (a &&& m)
  | negSucc a => exact Int.ofNat_nonneg (Nat.ldiff m a)

theorem land_mask_toNat_le (x : Int) (m : Nat) :
    (Int.land x (Int.ofNat m)).toNat ≤ m := by
  cases x with
  | ofNat a =>
    show (a &&& m) ≤ m
    exact Nat.and_le_right
  | negSucc a =>
    show Nat.ldiff m a ≤ m
    exact ldiff_le_left m a

/-! ### The numpy backend agrees with the python backend -/

theorem uint64_eq_of_lt {n : Nat} (h : n < 2 ^ 64) : uint64 n = n :=
  Nat.mod_eq_of_lt h

theorem one_shiftLeft_lt {i k : Nat} (h : i < k) : 1 <<< i < 2 ^ k := by
  rw [Nat.one_shiftLeft]
  exact Nat.pow_lt_pow_right (by decide) h

theorem mask_lt_two_pow {w k : Nat} (h : w ≤ k) : (mkBrush w).mask < 2 ^ k := by
  rw [mkBrush_mask]
  have h1 := Nat.pow_le_pow_right (show 0 < 2 by decide) h
  have h2 : 0 < 2 ^ w := Nat.pos_pow_of_pos w (by decide)
  omega

theorem sweep_ones_np_eq {w : Nat} (hw : w ≤ 64) :
    sweep_ones_np (mkBrush w) = sweep_ones (mkBrush w) := by
  apply List.map_congr_left
  intro i hi
  rw [List.mem_range, mkBrush_width] at hi
  exact uint64_eq_of_lt (one_shiftLeft_lt (by omega))

theorem sweep_zeros_np_eq {w : Nat} (hw : w ≤ 64) :
    sweep_zeros_np (mkBrush w) = sweep_zeros (mkBrush w) := by
  apply List.map_congr_left
  intro i hi
  rw [List.mem_range, mkBrush_width] at hi
  rw [uint64_eq_of_lt (mask_lt_two_pow hw),
    uint64_eq_of_lt (one_shiftLeft_lt (by omega))]

theorem toggleNpGo_some_eq : ∀ (l : List Nat), (∀ i ∈ l, i < 64) →
    ∀ p : Nat, toggleNpGo (some p) l = toggleGo p l := by
  intro l
  induction l with
  | nil => intro _ _; rfl
  | cons i is ih =>
    intro hl p
    have hi : i < 64 := hl i (List.mem_cons.mpr (Or.inl rfl))
    show (p ||| uint64 (1 <<< i)) :: toggleNpGo (some (p ||| uint64 (1 <<< i))) is =
      (p ||| (1 <<< i)) :: toggleGo (p ||| (1 <<< i)) is
    rw [uint64_eq_of_lt (one_shiftLeft_lt hi),
      ih (fun j hj => hl j (List.mem_cons.mpr (Or.inr hj))) (p ||| (1 <<< i))]

theorem toggleNpGo_none_eq : ∀ (l : List Nat), (∀ i ∈ l, i < 64) →
    toggleNpGo none l = toggleGo 0 l := by
  intro l hl
  cases l with
  | nil => rfl
  | cons i is =>
    have hi : i < 64 := hl i (List.mem_cons.mpr (Or.inl rfl))
    show uint64 (1 <<< i) :: toggleNpGo (some (uint64 (1 <<< i))) is =
      (0 ||| (1 <<< i)) :: toggleGo (0 ||| (1 <<< i)) is
    rw [uint64_eq_of_lt (one_shiftLeft_lt hi), Nat.zero_or,
      toggleNpGo_some_eq is (fun j hj => hl j (List.mem_cons.mpr (Or.inr hj)))]

theorem toggle_sparse_np_arr_eq {w : Nat} (hw : w ≤ 64) {step : Nat} (hs : 1 ≤ step) :
    toggle_sparse_np_arr (mkBrush w) step = toggleList w step := by
  rw [toggle_sparse_np_arr, toggleList, mkBrush_width]
  exact toggleNpGo_none_eq _ (fun i hi => by
    have := rangeStep_mem (w := w) (s := step) hs hi
    omega)

theorem scan_patterns_np_arr_eq {w : Nat} (hw : w ≤ 64) :
    scan_patterns_np_arr (mkBrush w) = scan_patterns (mkBrush w) := by
  rw [scan_patterns_np_arr, scan_patterns]
  apply List.map_congr_left
  intro r hr
  rw [List.mem_range] at hr
  rw [mkBrush_width] at *
  have hleft : w / 2 - r < 64 := by omega
  rw [uint64_eq_of_lt (one_shiftLeft_lt hleft)]
  by_cases hright : w / 2 + r < w
  · rw [if_pos hright, if_pos hright,
      uint64_eq_of_lt (one_shiftLeft_lt (by omega))]
  · rw [if_neg hright, if_neg hright]

theorem foldl_congr_mem {α β : Type} : ∀ (l : List α) (f g : β → α → β) (a : β),
    (∀ b : β, ∀ i ∈ l, f b i = g b i) → l.foldl f a = l.foldl g a := by
  intro l
  induction l with
  | nil => intro f g a _; rfl
  | cons i is ih =>
    intro f g a h
    rw [List.foldl_cons, List.foldl_cons, h a i (List.mem_cons.mpr (Or.inl rfl)),
      ih f g _ (fun b j hj => h b j (List.mem_cons.mpr (Or.inr hj)))]

theorem mirror_np_fold (f : Nat → Nat) : ∀ (l : List Nat),
    (∀ i ∈ l, f i < 2 ^ 64) → ∀ acc : Nat, acc < 2 ^ 64 →
    l.foldl (fun a i => uint64 (a ||| uint64 (f i))) acc =
      l.foldl (fun a i => a ||| f i) acc := by
  intro l
  induction l with
  | nil => intro _ acc _; rfl
  | cons i is ih =>
    intro hl acc hacc
    have hi : f i < 2 ^ 64 := hl i (List.mem_cons.mpr (Or.inl rfl))
    rw [List.foldl_cons, List.foldl_cons, uint64_eq_of_lt hi,
      uint64_eq_of_lt (lor_lt_two_pow hacc hi)]
    exact ih (fun j hj => hl j (List.mem_cons.mpr (Or.inr hj))) _
      (lor_lt_two_pow hacc hi)

theorem mirrorLut_getD_lt (c : Nat) : mirrorLut.getD c 0 < 256 := by
  by_cases hc : c < 256
  · rw [mirrorLut_getD hc]
    exact revN_lt 8 c
  · rw [mirrorLut, List.getD_eq_getElem?_getD, List.getElem?_eq_none]
    · decide
    · rw [List.length_map, List.length_range]
      omega

theorem mirror_term_lt {B i c : Nat} (hB : B ≤ 8) :
    (mirrorLut.getD c 0) <<< ((B - 1 - i) * 8) < 2 ^ 64 := by
  rw [Nat.shiftLeft_eq]
  calc mirrorLut.getD c 0 * 2 ^ ((B - 1 - i) * 8)
      < 256 * 2 ^ ((B - 1 - i) * 8) :=
        (Nat.mul_lt_mul_right (Nat.pos_pow_of_pos _ (by decide))).mpr
          (mirrorLut_getD_lt c)
    _ = 2 ^ (8 + (B - 1 - i) * 8) := by rw [pow_add]; norm_num
    _ ≤ 2 ^ 64 := Nat.pow_le_pow_right (by decide) (by omega)

theorem mirror_mask_np_eq {w : Nat} (hw : w ≤ 64) {x : Nat} (hx : x < 2 ^ 64) :
    mirror_mask_np (mkBrush w) x = mirror_mask (mkBrush w) x := by
  rw [mirror_mask_np, mirror_mask, mkBrush_width]
  have hB : (w + 7) / 8 ≤ 8 := by omega
  rw [mirror_np_fold _ _ (fun i _ => mirror_term_lt hB) 0 (by decide)]
  congr 1
  apply foldl_congr_mem
  intro a i _
  have hsh : x >>> (i * 8) ≤ x := by
    rw [Nat.shiftRight_eq_div_pow]
    exact Nat.div_le_self _ _
  rw [uint64_eq_of_lt (lt_of_le_of_lt hsh hx)]

theorem and_lor_self (a t : Nat) : a &&& (a ||| t) = a := by
  apply Nat.eq_of_testBit_eq
  intro j
  rw [Nat.testBit_land, Nat.testBit_lor]
  cases a.testBit j <;> simp

theorem toggle_sparse_pos (b : State) {step : Int} (hs : 0 < step) :
    toggle_sparse b step = Except.ok (toggleList b.width step.toNat) := by
  rw [toggle_sparse, pyRangeStep, if_neg (by omega), if_neg (by omega)]
  rfl

theorem masked_of_lt {w v : Nat} (hv : v < 2 ^ w) :
    v &&& (mkBrush w).mask = v := by
  rw [mkBrush_mask, and_two_pow_sub_one, Nat.mod_eq_of_lt hv]

theorem lt_of_masked {w v : Nat} (hv : v &&& (mkBrush w).mask = v) :
    v < 2 ^ w := by
  rw [mkBrush_mask, and_two_pow_sub_one] at hv
  calc v = v % 2 ^ w := hv.symm
    _ < 2 ^ w := Nat.mod_lt v (Nat.pos_pow_of_pos w (by decide))

theorem binString_chars (w m : Nat) : ∀ c ∈ (binString w m).data, c = '0' ∨ c = '1' := by
  intro c hc
  rw [binString] at hc
  obtain ⟨i, _, rfl⟩ := List.mem_map.mp hc
  by_cases h : m.testBit i
  · right; rw [if_pos h]
  · left; rw [if_neg h]

end BitBrush

open BitBrush

/-! ## The claims -/

/-- Claim C1: for every width with `1 ≤ width ≤ 64` and every value `x`
with `x & mask == x`, `mirror_mask (mirror_mask x) == x`; this covers
byte-aligned and non-byte-aligned widths (where the final right shift by
`bytes_needed * 8 - width` is applied). -/
theorem C1_mirror_mask_involution (w x : Nat) (_h1 : 1 ≤ w) (_h64 : w ≤ 64)
    (hx : x &&& (mkBrush w).mask = x) :
    mirror_mask (mkBrush w) (mirror_mask (mkBrush w) x) = x := by
  rw [mirror_mask_eq_revN, mirror_mask_eq_revN, mkBrush_width]
  exact revN_revN (lt_of_masked hx)

/-- Witness for C1 at the non-byte-aligned width 12. -/
theorem C1_witness :
    mirror_mask (mkBrush 12) (mirror_mask (mkBrush 12) 2748) = 2748 :=
  C1_mirror_mask_involution 12 2748 (by decide) (by decide) (by decide)

/-- Claim C2: for every width ≥ 1, `scan_patterns` yields exactly
`width / 2 + 1` values; the element at radius `r` is
`(1 << (center - r)) ||| (1 << (center + r))` when `center + r < width`
and `(1 << (center - r)) ||| 0` otherwise; at `r = 0` the OR collapses
to a single centered bit. -/
theorem C2_scan_patterns_formula (w : Nat) (hw : 1 ≤ w) :
    (scan_patterns (mkBrush w)).length = w / 2 + 1 ∧
    (∀ r : Nat, r ≤ w / 2 → (scan_patterns (mkBrush w))[r]? =
      some ((1 <<< (w / 2 - r)) |||
        (if w / 2 + r < w then 1 <<< (w / 2 + r) else 0))) ∧
    (scan_patterns (mkBrush w))[0]? = some (1 <<< (w / 2)) := by
  have hform : ∀ r : Nat, r ≤ w / 2 → (scan_patterns (mkBrush w))[r]? =
      some ((1 <<< (w / 2 - r)) |||
        (if w / 2 + r < w then 1 <<< (w / 2 + r) else 0)) := by
    intro r hr
    rw [scan_patterns, mkBrush_width, List.getElem?_map,
      List.getElem?_range (by omega)]
    rfl
  refine ⟨?_, hform, ?_⟩
  · rw [scan_patterns, List.length_map, List.length_range, mkBrush_width]
  · rw [hform 0 (Nat.zero_le _), Nat.sub_zero, Nat.add_zero,
      if_pos (Nat.div_lt_self (by omega) (by decide)), Nat.or_self]

/-- Witness for C2 at width 8. -/
theorem C2_witness :
    (scan_patterns (mkBrush 8)).length = 5 ∧
      (scan_patterns (mkBrush 8))[1]? = some 40 := by
  refine ⟨(C2_scan_patterns_formula 8 (by decide)).1, ?_⟩
  rw [(C2_scan_patterns_formula 8 (by decide)).2.1 1 (by decide)]
  decide

/-- Claim C3 (as stated) is false: for width 8, `scan_patterns` does not
yield `[16, 10, 20, 40, 65]`. -/
theorem C3_counterexample : scan_patterns (mkBrush 8) ≠ [16, 10, 20, 40, 65] := by
  decide

/-- Claim C3, amended: for width 8, iterating `scan_patterns` to
exhaustion yields exactly the five values `[16, 40, 68, 130, 1]`, in
that order. -/
theorem C3_scan_patterns_width8 :
    scan_patterns (mkBrush 8) = [16, 40, 68, 130, 1] := by
  decide

/-- Claim C4 (as stated) is false: constructing with width 0 does not
fail; it succeeds and returns the fully initialised state with
`width = 0` and `mask = 0`. -/
theorem C4_counterexample : init 0 = Except.ok { width := 0, mask := 0 } := by
  rfl

/-- Claim C4, amended: the constructor performs no width validation.
For every width ≥ 0 (including 0) construction succeeds and returns a
fully initialised engine with `mask = 2 ^ width - 1`; for negative
widths it fails, but with Python's generic `ValueError` raised by the
negative shift, not a distinct InvalidWidth error. -/
theorem C4_init_no_validation :
    (∀ w : Int, 0 ≤ w → init w = Except.ok (mkBrush w.toNat) ∧
      (mkBrush w.toNat).width = w.toNat ∧ (mkBrush w.toNat).mask = 2 ^ w.toNat - 1) ∧
    (∀ w : Int, w < 0 →
      init w = Except.error (PyError.valueError "negative shift count")) := by
  constructor
  · intro w hw
    refine ⟨?_, rfl, mkBrush_mask _⟩
    rw [init, if_neg (by omega)]
  · intro w hw
    rw [init, if_pos hw]

/-- Witness for C4's amended statement. -/
theorem C4_witness :
    init 5 = Except.ok (mkBrush 5) ∧
      init (-3) = Except.error (PyError.valueError "negative shift count") :=
  ⟨(C4_init_no_validation.1 5 (by decide)).1,
    C4_init_no_validation.2 (-3) (by decide)⟩

/-- Claim C5 (as stated) is false: `toggle_sparse` with a negative step
does not fail; it silently yields the empty sequence. -/
theorem C5_counterexample : toggle_sparse (mkBrush 8) (-1) = Except.ok [] := by
  rfl

/-- Claim C5, amended: there is no step validation and no distinct
InvalidStep error.  `toggle_sparse(0)` fails with the generic
`ValueError` that `range()` raises (and only once the generator is
consumed), while a negative step makes the underlying `range` empty, so
the call silently yields an empty sequence. -/
theorem C5_toggle_sparse_no_validation (b : State) :
    toggle_sparse b 0 =
      Except.error (PyError.valueError "range() arg 3 must not be zero") ∧
    (∀ step : Int, step < 0 → toggle_sparse b step = Except.ok []) := by
  constructor
  · rw [toggle_sparse, pyRangeStep, if_pos rfl]
    rfl
  · intro step hs
    rw [toggle_sparse, pyRangeStep, if_neg (by omega), if_pos hs]
    rfl

/-- Witness for C5's amended statement. -/
theorem C5_witness :
    toggle_sparse (mkBrush 8) 0 =
      Except.error (PyError.valueError "range() arg 3 must not be zero") ∧
    toggle_sparse (mkBrush 8) (-2) = Except.ok [] :=
  ⟨(C5_toggle_sparse_no_validation (mkBrush 8)).1,
    (C5_toggle_sparse_no_validation (mkBrush 8)).2 (-2) (by decide)⟩

/-- Claim C6 states the spec's intent, but the code violates it for
`toggle_sparse` and `scan_patterns`: both bodies contain `yield`, so
even under `backend == 'numpy'` each call returns a generator whose
`return arr` raises `StopIteration`, and iteration yields nothing.
Concretely: at width 9 with step 3 the numpy backend yields `[]` while
the python backend yields `[1, 9, 73]`; at width 8 `scan_patterns`
yields `[]` versus `[16, 40, 68, 130, 1]` — even though the arrays the
numpy branches compute (and never deliver) match the python backend
exactly, as the code's own docstrings promise.  `sweep_ones`,
`sweep_zeros` and `mirror_mask` contain no `yield` and do agree. -/
theorem C6_numpy_generator_divergence :
    toggle_sparse_np (mkBrush 9) 3 = Except.ok [] ∧
    toggle_sparse (mkBrush 9) 3 = Except.ok [1, 9, 73] ∧
    scan_patterns_np (mkBrush 8) = [] ∧
    scan_patterns (mkBrush 8) = [16, 40, 68, 130, 1] ∧
    toggle_sparse_np_arr (mkBrush 9) 3 = [1, 9, 73] ∧
    scan_patterns_np_arr (mkBrush 8) = [16, 40, 68, 130, 1] ∧
    sweep_ones_np (mkBrush 8) = sweep_ones (mkBrush 8) ∧
    sweep_zeros_np (mkBrush 8) = sweep_zeros (mkBrush 8) ∧
    mirror_mask_np (mkBrush 12) 2748 = mirror_mask (mkBrush 12) 2748 :=
  ⟨rfl, rfl, rfl, by decide, by decide, by decide, by decide, by decide, by decide⟩

/-- Claim C7: for every valid width, every value produced by
`sweep_ones`, `sweep_zeros`, `toggle_sparse` (positive step),
`scan_patterns`, and `mirror_mask` (for any nonnegative input) has no
bits outside the mask (`value & ~mask == 0`, i.e. `value &&& mask = value`). -/
theorem C7_all_outputs_masked (w : Nat) (hw : 1 ≤ w) :
    (∀ v ∈ sweep_ones (mkBrush w), v &&& (mkBrush w).mask = v) ∧
    (∀ v ∈ sweep_zeros (mkBrush w), v &&& (mkBrush w).mask = v) ∧
    (∀ step : Int, 0 < step →
      toggle_sparse (mkBrush w) step = Except.ok (toggleList w step.toNat) ∧
      ∀ v ∈ toggleList w step.toNat, v &&& (mkBrush w).mask = v) ∧
    (∀ v ∈ scan_patterns (mkBrush w), v &&& (mkBrush w).mask = v) ∧
    (∀ x : Nat, mirror_mask (mkBrush w) x &&& (mkBrush w).mask =
      mirror_mask (mkBrush w) x) := by
  refine ⟨?_, ?_, ?_, ?_, ?_⟩
  · intro v hv
    rw [sweep_ones, mkBrush_width] at hv
    obtain ⟨i, hi, rfl⟩ := List.mem_map.mp hv
    rw [List.mem_range] at hi
    exact masked_of_lt (one_shiftLeft_lt hi)
  · intro v hv
    rw [sweep_zeros, mkBrush_width] at hv
    obtain ⟨i, hi, rfl⟩ := List.mem_map.mp hv
    rw [List.mem_range] at hi
    exact masked_of_lt (xor_lt_two_pow (mask_lt_two_pow le_rfl)
      (one_shiftLeft_lt hi))
  · intro step hs
    refine ⟨toggle_sparse_pos (mkBrush w) hs, ?_⟩
    intro v hv
    apply masked_of_lt
    apply toggleGo_mem_lt (rangeStep w step.toNat) 0 ?_ ?_ v hv
    · intro i hi
      exact rangeStep_mem (by omega) hi
    · exact Nat.pos_pow_of_pos w (by decide)
  · intro v hv
    rw [scan_patterns, mkBrush_width] at hv
    obtain ⟨r, hr, rfl⟩ := List.mem_map.mp hv
    rw [List.mem_range] at hr
    have hc : w / 2 < w := Nat.div_lt_self (by omega) (by decide)
    apply masked_of_lt
    apply lor_lt_two_pow (one_shiftLeft_lt (by omega))
    by_cases h : w / 2 + r < w
    · rw [if_pos h]
      exact one_shiftLeft_lt h
    · rw [if_neg h]
      exact Nat.pos_pow_of_pos w (by decide)
  · intro x
    rw [mirror_mask_eq_revN, mkBrush_width]
    exact masked_of_lt (revN_lt w x)

/-- Witness for C7 at width 9 (one concrete output of each operation). -/
theorem C7_witness :
    (4 &&& (mkBrush 9).mask = 4) ∧
    (509 &&& (mkBrush 9).mask = 509) ∧
    (73 &&& (mkBrush 9).mask = 73) ∧
    (130 &&& (mkBrush 9).mask = 130) ∧
    (mirror_mask (mkBrush 9) 5 &&& (mkBrush 9).mask = mirror_mask (mkBrush 9) 5) :=
  ⟨(C7_all_outputs_masked 9 (by decide)).1 4 (by decide),
    (C7_all_outputs_masked 9 (by decide)).2.1 509 (by decide),
    ((C7_all_outputs_masked 9 (by decide)).2.2.1 3 (by decide)).2 73 (by decide),
    (C7_all_outputs_masked 9 (by decide)).2.2.2.1 130 (by decide),
    (C7_all_outputs_masked 9 (by decide)).2.2.2.2 5⟩

/-- Claim C8: for every width ≥ 1 and positive step, `toggle_sparse`
yields exactly `ceil(width/step)` values; element `k` is the OR of
`1 << (j*step)` over `j ≤ k`; each element adds exactly one new bit at
position `(k+1)*step`, the sequence is strictly increasing, each
element's bits strictly contain the previous element's; and width 9
with step 3 yields `[1, 9, 73]`. -/
theorem C8_toggle_sparse_formula (w step : Nat) (_hw : 1 ≤ w) (hs : 1 ≤ step) :
    toggle_sparse (mkBrush w) (step : Int) = Except.ok (toggleList w step) ∧
    (toggleList w step).length = (w + step - 1) / step ∧
    (∀ k, k < (w + step - 1) / step →
      (toggleList w step)[k]? = some (cumOr step k)) ∧
    (∀ k, k + 1 < (w + step - 1) / step →
      cumOr step (k + 1) = cumOr step k ||| (1 <<< ((k + 1) * step)) ∧
      (cumOr step k).testBit ((k + 1) * step) = false ∧
      cumOr step k < cumOr step (k + 1) ∧
      cumOr step k &&& cumOr step (k + 1) = cumOr step k) ∧
    toggleList 9 3 = [1, 9, 73] := by
  refine ⟨?_, ?_, ?_, ?_, by decide⟩
  · have h := toggle_sparse_pos (mkBrush w) (by omega : (0 : Int) < (step : Int))
    rwa [mkBrush_width, Int.toNat_ofNat] at h
  · rw [toggleList, toggleGo_length, rangeStep_length]
  · intro k hk
    exact toggleList_getElem hk
  · intro k _
    refine ⟨cumOr_succ step k, cumOr_testBit_next k hs, ?_, ?_⟩
    · rw [cumOr_succ_add k hs]
      have := Nat.pos_pow_of_pos ((k + 1) * step) (show 0 < 2 by decide)
      omega
    · rw [cumOr_succ]
      exact and_lor_self _ _

/-- Witness for C8 at width 9, step 3. -/
theorem C8_witness : toggle_sparse (mkBrush 9) ((3 : Nat) : Int) = Except.ok [1, 9, 73] := by
  rw [(C8_toggle_sparse_formula 9 3 (by decide) (by decide)).1,
    (C8_toggle_sparse_formula 9 3 (by decide) (by decide)).2.2.2.2]

/-- Claim C9: for every valid width and every integer `x`, `visualize`
returns a string of exactly `width` characters, each `'0'` or `'1'`,
and parsing it as base 2 reproduces `x & mask`. -/
theorem C9_visualize_roundtrip (w : Nat) (x : Int) (hw : 1 ≤ w) :
    (visualize (mkBrush w) x).length = w ∧
    (∀ c ∈ (visualize (mkBrush w) x).data, c = '0' ∨ c = '1') ∧
    (parseBin (visualize (mkBrush w) x) : Int) =
      Int.land x (Int.ofNat (mkBrush w).mask) := by
  have hm : (Int.land x (Int.ofNat (mkBrush w).mask)).toNat < 2 ^ w := by
    have h1 := land_mask_toNat_le x (mkBrush w).mask
    have h2 : (mkBrush w).mask < 2 ^ w := mask_lt_two_pow le_rfl
    omega
  refine ⟨?_, ?_, ?_⟩
  · rw [visualize, mkBrush_width]
    exact binString_length hw hm
  · rw [visualize]
    exact binString_chars _ _
  · rw [visualize, mkBrush_width, parseBin_binString hw hm]
    exact Int.toNat_of_nonneg (land_mask_nonneg x (mkBrush w).mask)

/-- Witness for C9 at width 8 with the negative input −5. -/
theorem C9_witness :
    (visualize (mkBrush 8) (-5)).length = 8 ∧
    (parseBin (visualize (mkBrush 8) (-5)) : Int) =
      Int.land (-5) (Int.ofNat (mkBrush 8).mask) :=
  ⟨(C9_visualize_roundtrip 8 (-5) (by decide)).1,
    (C9_visualize_roundtrip 8 (-5) (by decide)).2.2⟩

/-- Claim C10: for every width with `1 ≤ width ≤ 64` and every `x` with
`x & mask == x`, `count_ones (mirror_mask x) = count_ones x`: bit
reversal permutes bit positions within the width and preserves the
population count. -/
theorem C10_mirror_preserves_popcount (w x : Nat) (_hw1 : 1 ≤ w) (_hw2 : w ≤ 64)
    (hx : x &&& (mkBrush w).mask = x) :
    count_ones (mkBrush w) (Int.ofNat (mirror_mask (mkBrush w) x)) =
      count_ones (mkBrush w) (Int.ofNat x) := by
  have hxlt : x < 2 ^ w := lt_of_masked hx
  show popCount (mirror_mask (mkBrush w) x &&& (mkBrush w).mask) =
    popCount (x &&& (mkBrush w).mask)
  rw [hx, mirror_mask_eq_revN, mkBrush_width, mkBrush_mask, and_two_pow_sub_one,
    Nat.mod_eq_of_lt (revN_lt w x), popCount_revN, Nat.mod_eq_of_lt hxlt]

/-- Witness for C10 at the non-byte-aligned width 12. -/
theorem C10_witness :
    count_ones (mkBrush 12) (Int.ofNat (mirror_mask (mkBrush 12) 2748)) =
      count_ones (mkBrush 12) (Int.ofNat 2748) :=
  C10_mirror_preserves_popcount 12 2748 (by decide) (by decide) (by decide)

-- Sanity checks of the embedding on the concrete examples of the spec.
example : BitBrush.sweep_ones (BitBrush.mkBrush 8) = [1, 2, 4, 8, 16, 32, 64, 128] := by decide
example : BitBrush.sweep_zeros (BitBrush.mkBrush 8) = [254, 253, 251, 247, 239, 223, 191, 127] := by decide
example : BitBrush.toggleList 9 3 = [1, 9, 73] := by decide
example : BitBrush.scan_patterns (BitBrush.mkBrush 8) = [16, 40, 68, 130, 1] := by decide
example : BitBrush.mirror_mask (BitBrush.mkBrush 12) 2748 = BitBrush.revN 12 2748 := by decide
example : BitBrush.mirror_mask (BitBrush.mkBrush 8) 1 = 128 := by decide
example : BitBrush.visualize (BitBrush.mkBrush 8) 5 = "00000101" := by decide
example : BitBrush.parseBin "00000101" = 5 := by decide
example : BitBrush.count_ones (BitBrush.mkBrush 8) 255 = 8 := by decide
